import Mathlib

/-!
# WinDeployDllHelper — verification of the dependency-resolution script

Shallow embedding of `src/index.js`, a Node.js script that computes the
filtered transitive closure of DLL dependencies of an executable, copies
missing DLLs next to the executable, and aborts on the first DLL it
cannot locate.

Modelling notes, tied to the source:

* `scan(targetPath)` (index.js lines 57-68) invokes the external
  `Dependencies.exe` tool and builds a JS `Map` from module name to
  file path (possibly `null`), keeping only names matching
  `INCLUDE_PATTERN`.  The external tool is the `oracle` field of
  `Config`: for a file path it yields the raw list of
  `(ModuleName, Filepath)` entries of the parsed JSON, in order.
  A JS `Map` is modelled as an insertion-ordered association list with
  distinct keys: `Map.prototype.set` on an existing key updates the
  value in place (keeping the original position), otherwise appends.

* The main loop (lines 83-130) iterates `for (const pair of queue)`
  over the *live* `Map` while mutating it.  Per the ECMAScript
  specification, a `Map` iterator visits entries in insertion order and
  *does* visit entries inserted after iteration began, while entries
  deleted before being visited are skipped.  Because the loop body
  always deletes the entry being processed (lines 91 and 110) before
  appending children (line 126), the live iteration is exactly a FIFO
  process on the association list: repeatedly take the head entry,
  delete it, and append to the tail those scanned children whose name
  is not currently a key of the queue (line 123 `queue.has`).
  One execution of the `for` loop — one pass of the `while` loop —
  therefore runs until the queue is empty or an error is thrown.
  `runFuel` models this process with explicit fuel; `RunResult`
  distinguishes normal completion, a thrown error (line 113), and
  running out of fuel (the process still going).

* JS truthiness of `if (filePath)` (line 88): `null` and the empty
  string are falsy, any other string truthy; `Filepath` is modelled as
  `Option String` (`none` for JSON `null`).

* `fs.readdirSync`/`path.join`/`path.dirname` are the `dirContents`
  field and the `pathJoin` function / `exeDir` field of `Config`.

* Console output: each copy at line 108 is recorded in the `copies`
  field (module name, source path, destination path), in order; the
  elapsed-time line (134) has no modelled content.  Each invocation of
  the oracle (line 59) is recorded in the `scans` field — the seed scan
  of `EXE_PATH` (line 79) plus one per processed queue entry (line 119).
-/

/-- One raw dependency entry of the tool's JSON output and one entry of
the worklist: a module name together with its `Filepath` (`none` for
JSON `null`). -/
abbrev DepEntry := String × Option String

/-- Static inputs of the script (index.js lines 23-45) together with
its two external collaborators: the dependency-analysis tool and the
filesystem directory listing. -/
structure Config where
  /-- For a file path, the parsed `json.Root.Dependencies` list the
  external tool reports: `(ModuleName, Filepath)` in order. -/
  oracle : String → List DepEntry
  /-- `INCLUDE_PATTERN.test` (line 45). -/
  pattern : String → Bool
  /-- `EXE_PATH` (line 29). -/
  exePath : String
  /-- `EXE_DIR_PATH = path.dirname(EXE_PATH)` (line 31). -/
  exeDir : String
  /-- `SEARCH_DIRS` (line 37), in configured order. -/
  searchDirs : List String
  /-- `fs.readdirSync` (line 97): the file names in a directory. -/
  dirContents : String → List String

/-- `path.join dir name` (lines 106-107). -/
def pathJoin (dir name : String) : String := dir ++ "/" ++ name

/-- JS truthiness of a `Filepath` value (line 88 `if (filePath)`):
`null` and `""` are falsy. -/
def truthy : Option String → Bool
  | none => false
  | some s => !s.isEmpty

/-- `queue.has k` (line 123) on the association-list model of a JS Map. -/
def hasKey (m : List DepEntry) (k : String) : Bool := m.any (fun e => e.1 = k)

/-- `Map.prototype.set` (lines 64, 126): update in place when the key is
present (keeping its position), otherwise append at the end. -/
def mapSet (m : List DepEntry) (k : String) (v : Option String) : List DepEntry :=
  if hasKey m k then m.map (fun e => if e.1 = k then (k, v) else e) else m ++ [(k, v)]

/-- `scan(targetPath)` (lines 57-68): fold the tool's entries into a
fresh Map, keeping only module names matching the inclusion pattern. -/
def scan (cfg : Config) (targetPath : String) : List DepEntry :=
  (cfg.oracle targetPath).foldl
    (fun result dep => if cfg.pattern dep.1 then mapSet result dep.1 dep.2 else result) []

/-- The `for (const searchDir of SEARCH_DIRS)` loop (lines 96-104):
returns the first directory (in order) whose listing contains a file
named exactly `name`, together with the list of directories actually
consulted (those whose contents were read before the loop broke). -/
def searchFind (cfg : Config) (name : String) : List String → Option String × List String
  | [] => (none, [])
  | d :: ds =>
    if (cfg.dirContents d).any (fun f => f = name) then (some d, [d])
    else
      let r := searchFind cfg name ds
      (r.1, d :: r.2)

/-- The directory a missing module is copied from: first match among
`SEARCH_DIRS`, or `none` when no directory contains the module. -/
def findDir (cfg : Config) (name : String) : Option String :=
  (searchFind cfg name cfg.searchDirs).1

/-- The search directories whose contents the loop reads (in order)
before terminating. -/
def consulted (cfg : Config) (name : String) : List String :=
  (searchFind cfg name cfg.searchDirs).2

/-- A performed copy action (lines 106-109): module name (also the
console-reported file name), source path, destination path. -/
abbrev CopyAction := String × String × String

/-- Processing of one queue entry up to `populateFilePath`
(lines 87-115): for a truthy path, that path and no copy; otherwise
search the directories, and on a match copy `dir/name` to
`exeDir/name`; `none` models the thrown error (line 113). -/
def resolveEntry (cfg : Config) (name : String) (fp : Option String) :
    Option (String × Option CopyAction) :=
  if truthy fp then
    some (fp.getD "", none)
  else
    match findDir cfg name with
    | some d =>
      some (pathJoin cfg.exeDir name, some (name, pathJoin d name, pathJoin cfg.exeDir name))
    | none => none

/-- The child-enqueue loop (lines 120-128): append each scanned child
whose name is not currently a key of the queue; skip the others. -/
def enqueueChildren (q : List DepEntry) (children : List DepEntry) : List DepEntry :=
  children.foldl (fun acc c => if hasKey acc c.1 then acc else acc ++ [c]) q

/-- The mutable state of the script: the worklist `queue` (line 79),
plus the observable history — copies performed, module names processed
(removed from the queue), and oracle invocations. -/
structure EngineState where
  queue : List DepEntry
  copies : List CopyAction
  processed : List String
  scans : List String
deriving DecidableEq, Repr

/-- Outcome of running the loop with a given amount of fuel. -/
inductive RunResult where
  /-- The queue is empty: the script falls out of the `while` loop and
  prints the elapsed time (lines 132-134). -/
  | finished : EngineState → RunResult
  /-- `throw new Error('Can not find ' + moduleName)` (line 113): the
  state at the throw (the failing entry still in the queue). -/
  | failed : String → EngineState → RunResult
  /-- Fuel exhausted with the queue still non-empty. -/
  | outOfFuel : EngineState → RunResult
deriving DecidableEq, Repr

/-- The state carried by a run result. -/
def resultState : RunResult → EngineState
  | .finished s => s
  | .failed _ s => s
  | .outOfFuel s => s

/-- `true` unless the run is still going (out of fuel). -/
def isDone : RunResult → Bool
  | .outOfFuel _ => false
  | _ => true

/-- The main loop (lines 83-130) as a fuel-indexed step process: take
the head entry, resolve it (accept its path, or search and copy),
remove it, scan the populate path and append the deduplicated children;
stop with `failed` on an unresolvable entry, with `finished` on an
empty queue. -/
def runFuel (cfg : Config) : Nat → EngineState → RunResult
  | 0, s => if s.queue.isEmpty then .finished s else .outOfFuel s
  | Nat.succ n, s =>
    match s.queue with
    | [] => .finished s
    | (name, fp) :: rest =>
      match resolveEntry cfg name fp with
      | none => .failed name s
      | some (pop, copyOpt) =>
        runFuel cfg n
          ⟨enqueueChildren rest (scan cfg pop),
           (match copyOpt with | some c => s.copies ++ [c] | none => s.copies),
           s.processed ++ [name],
           s.scans ++ [pop]⟩

/-- The state after line 79: the queue seeded by scanning `EXE_PATH`,
nothing copied or processed, one oracle invocation recorded. -/
def initState (cfg : Config) : EngineState :=
  ⟨scan cfg cfg.exePath, [], [], [cfg.exePath]⟩

/-- The run halts (finishes or throws) with some amount of fuel. -/
def halts (cfg : Config) : Prop :=
  ∃ n, isDone (runFuel cfg n (initState cfg)) = true

/-- The concrete inclusion pattern of the source, `/^vtk/` (line 45):
the module name starts with the characters `v`, `t`, `k`. -/
def vtkPattern (s : String) : Bool :=
  match s.data with
  | 'v' :: 't' :: 'k' :: _ => true
  | _ => false

/-! ## Concrete configurations

Small fully concrete instantiations of `Config`, used to evaluate the
engine on explicit inputs.  All use the source's inclusion pattern
shape (`/^vtk/`, line 45), an executable `"E"` in directory `"T"`, and
oracles given by finite case distinction on the scanned path. -/

/-- Module `vtkD` is a dependency of both `vtkA` (scanned at `pa`) and
`vtkC` (scanned at `pc`); `vtkD` comes earlier than `vtkC` in `vtkA`'s
dependency list, so it is processed (and removed) before `vtkC`'s scan
rediscovers it. -/
def cfgRe : Config :=
  ⟨fun p =>
      if p = "E" then [("vtkA", some "pa")]
      else if p = "pa" then [("vtkD", some "pd"), ("vtkC", some "pc")]
      else if p = "pc" then [("vtkD", some "pd")]
      else [],
   vtkPattern, "E", "T", [], fun _ => []⟩

/-- `vtkB` is not a direct dependency of the executable: it is only
discovered while scanning `vtkA`, i.e. inserted into the worklist
mid-pass. -/
def cfgMid : Config :=
  ⟨fun p =>
      if p = "E" then [("vtkA", some "pa")]
      else if p = "pa" then [("vtkB", some "pb")]
      else [],
   vtkPattern, "E", "T", [], fun _ => []⟩

/-- A two-cycle: `vtkA` depends on `vtkB` and `vtkB` depends on
`vtkA`.  The filtered transitive dependency set is the finite set
containing exactly `vtkA` and `vtkB`. -/
def cfgCyc : Config :=
  ⟨fun p =>
      if p = "E" then [("vtkA", some "pa")]
      else if p = "pa" then [("vtkB", some "pb")]
      else if p = "pb" then [("vtkA", some "pa")]
      else [],
   vtkPattern, "E", "T", [], fun _ => []⟩

/-- Two worklist entries: `vtkX` has no resolved path and no search
directory contains it, while `vtkZ` (queued after it) is resolvable;
one copy (`vtkW`) happens before the failing entry is reached. -/
def cfgMiss : Config :=
  ⟨fun p =>
      if p = "E" then [("vtkW", none), ("vtkX", none), ("vtkZ", some "pz")]
      else [],
   vtkPattern, "E", "T", ["S"], fun d => if d = "S" then ["vtkW"] else []⟩

/-- A missing module found in the second of three search directories;
the third also contains it but must never be consulted. -/
def cfgCopy : Config :=
  ⟨fun p => if p = "E" then [("vtkY", none)] else [],
   vtkPattern, "E", "T", ["S1", "S2", "S3"],
   fun d => if d = "S1" then ["other.dll"]
            else if d = "S2" then ["vtkY"]
            else if d = "S3" then ["vtkY"] else []⟩

/-- The root's only reported dependency fails the inclusion pattern,
so the seed scan returns the empty mapping. -/
def cfgEmpty : Config :=
  ⟨fun p => if p = "E" then [("Qt5Core.dll", some "q")] else [],
   vtkPattern, "E", "T", [], fun _ => []⟩

/-! ## Derived definitions used in the statements -/

/-- Lookup in the association-list model of a JS Map: the value stored
under a key, if present. -/
def lookupKey (m : List DepEntry) (k : String) : Option (Option String) :=
  (m.find? (fun e => e.1 = k)).map (fun e => e.2)

/-- All module names recorded in a state — worklist keys, processed
names, and names of copied files — satisfy the inclusion pattern. -/
def statePatterns (cfg : Config) (s : EngineState) : Bool :=
  s.queue.all (fun e => cfg.pattern e.1)
    && s.processed.all (fun x => cfg.pattern x)
    && s.copies.all (fun c => cfg.pattern c.1)

/-- The worklist measure used for termination: each entry of height `h`
weighs `(B + 1) ^ h`, where `B` bounds the number of filtered direct
dependencies of any file. -/
def measureQ (ht : String → Nat) (B : Nat) (q : List DepEntry) : Nat :=
  (q.map (fun e => (B + 1) ^ ht e.1)).sum

/-- `G` is a set of entries closed under processing, with dependency
heights strictly decreasing: for every entry of `G` that resolves, its
scanned children stay in `G`, number at most `B`, and have strictly
smaller height.  An acyclic filtered dependency graph yields such data. -/
def goodStepB (cfg : Config) (G : List DepEntry) (ht : String → Nat) (B : Nat) : Bool :=
  G.all (fun e =>
    match resolveEntry cfg e.1 e.2 with
    | some (pop, _) =>
      decide ((scan cfg pop).length ≤ B)
        && (scan cfg pop).all (fun c => decide (c ∈ G) && decide (ht c.1 < ht e.1))
    | none => true)

/-! ## Helper lemmas -/

theorem hasKey_append (q r : List DepEntry) (k : String) :
    hasKey (q ++ r) k = (hasKey q k || hasKey r k) := by
  simp [hasKey]

/-- The dedup check of the child-enqueue loop consults only the current
queue: a key is present afterwards iff it was present before or occurs
among the children. -/
theorem hasKey_enqueueChildren (q cs : List DepEntry) (k : String) :
    hasKey (enqueueChildren q cs) k = (hasKey q k || cs.any (fun c => c.1 = k)) := by
  induction cs generalizing q with
  | nil => simp [enqueueChildren]
  | cons c cs ih =>
    simp only [enqueueChildren, List.foldl_cons] at *
    by_cases hc : hasKey q c.1
    · rw [if_pos hc, ih]
      by_cases hck : c.1 = k
      · subst hck
        simp [hc]
      · simp [hck]
    · rw [if_neg hc, ih, hasKey_append]
      by_cases hck : c.1 = k
      · subst hck
        simp [hasKey]
      · simp [hasKey, hck]

theorem mem_enqueueChildren (q cs : List DepEntry) (e : DepEntry)
    (h : e ∈ enqueueChildren q cs) : e ∈ q ∨ e ∈ cs := by
  induction cs generalizing q with
  | nil => exact Or.inl (by simpa [enqueueChildren] using h)
  | cons c cs ih =>
    simp only [enqueueChildren, List.foldl_cons] at h
    rcases ih _ h with hq | hcs
    · by_cases hc : hasKey q c.1
      · rw [if_pos hc] at hq
        exact Or.inl hq
      · rw [if_neg hc] at hq
        rcases List.mem_append.mp hq with h1 | h1
        · exact Or.inl h1
        · simp only [List.mem_singleton] at h1
          exact Or.inr (h1 ▸ List.mem_cons_self c cs)
    · exact Or.inr (List.mem_cons_of_mem c hcs)

/-- Unfolding equation of `runFuel` on an empty queue. -/
theorem runFuel_queue_nil (cfg : Config) (n : Nat) (cps : List CopyAction)
    (prc scs : List String) :
    runFuel cfg n ⟨[], cps, prc, scs⟩ = .finished ⟨[], cps, prc, scs⟩ := by
  cases n <;> rfl

/-- Unfolding equation of `runFuel` at zero fuel on a non-empty queue. -/
theorem runFuel_zero_cons (cfg : Config) (e : DepEntry) (rest : List DepEntry)
    (cps : List CopyAction) (prc scs : List String) :
    runFuel cfg 0 ⟨e :: rest, cps, prc, scs⟩ = .outOfFuel ⟨e :: rest, cps, prc, scs⟩ := rfl

/-- Unfolding equation of `runFuel` for one processing step. -/
theorem runFuel_cons_eq (cfg : Config) (n : Nat) (name : String) (fp : Option String)
    (rest : List DepEntry) (cps : List CopyAction) (prc scs : List String) :
    runFuel cfg (n + 1) ⟨(name, fp) :: rest, cps, prc, scs⟩ =
      (match resolveEntry cfg name fp with
       | none => .failed name ⟨(name, fp) :: rest, cps, prc, scs⟩
       | some (pop, copyOpt) =>
         runFuel cfg n ⟨enqueueChildren rest (scan cfg pop),
                        (match copyOpt with | some c => cps ++ [c] | none => cps),
                        prc ++ [name], scs ++ [pop]⟩) := rfl

/-- `.finished` is only ever produced with an empty queue. -/
theorem finished_queue_eq_nil (cfg : Config) (fuel : Nat) (s s2 : EngineState)
    (h : runFuel cfg fuel s = .finished s2) : s2.queue = [] := by
  induction fuel generalizing s with
  | zero =>
    obtain ⟨q, cps, prc, scs⟩ := s
    cases q with
    | nil => rw [runFuel_queue_nil] at h; cases h; rfl
    | cons e rest => rw [runFuel_zero_cons] at h; cases h
  | succ n ih =>
    obtain ⟨q, cps, prc, scs⟩ := s
    cases q with
    | nil => rw [runFuel_queue_nil] at h; cases h; rfl
    | cons e rest =>
      obtain ⟨name, fp⟩ := e
      rw [runFuel_cons_eq] at h
      cases hr : resolveEntry cfg name fp with
      | none => rw [hr] at h; cases h
      | some r =>
        obtain ⟨pop, copyOpt⟩ := r
        rw [hr] at h
        exact ih _ h

/-- Names already processed stay processed through the rest of the run. -/
theorem processed_mono (cfg : Config) (fuel : Nat) (s : EngineState) (x : String)
    (h : x ∈ s.processed) : x ∈ (resultState (runFuel cfg fuel s)).processed := by
  induction fuel generalizing s with
  | zero =>
    obtain ⟨q, cps, prc, scs⟩ := s
    cases q with
    | nil => rw [runFuel_queue_nil]; exact h
    | cons e rest => rw [runFuel_zero_cons]; exact h
  | succ n ih =>
    obtain ⟨q, cps, prc, scs⟩ := s
    cases q with
    | nil => rw [runFuel_queue_nil]; exact h
    | cons e rest =>
      obtain ⟨name, fp⟩ := e
      rw [runFuel_cons_eq]
      cases hr : resolveEntry cfg name fp with
      | none => exact h
      | some r =>
        obtain ⟨pop, copyOpt⟩ := r
        exact ih _ (List.mem_append_left _ h)

/-- The directory-search loop returns the first matching directory, in
the sense of `List.find?`. -/
theorem searchFind_fst_eq (cfg : Config) (name : String) (l : List String) :
    (searchFind cfg name l).1 =
      l.find? (fun d => (cfg.dirContents d).any (fun f => f = name)) := by
  induction l with
  | nil => rfl
  | cons d ds ih =>
    by_cases hc : (cfg.dirContents d).any (fun f => f = name)
    · simp [searchFind, List.find?, hc]
    · simp only [Bool.not_eq_true] at hc
      simp [searchFind, List.find?, hc, ih]

/-- When the search loop finds a directory, the consulted directories
are exactly the non-matching ones before it followed by the match
itself, and the found directory does contain the module. -/
theorem searchFind_consulted (cfg : Config) (name : String) (l : List String) (d : String)
    (h : (searchFind cfg name l).1 = some d) :
    (searchFind cfg name l).2 =
        l.takeWhile (fun d2 => !((cfg.dirContents d2).any (fun f => f = name))) ++ [d]
      ∧ (cfg.dirContents d).any (fun f => f = name) = true := by
  induction l with
  | nil => cases h
  | cons d0 ds ih =>
    by_cases hc : (cfg.dirContents d0).any (fun f => f = name)
    · simp only [searchFind, if_pos hc] at h ⊢
      cases h
      simp [List.takeWhile, hc]
    · simp only [Bool.not_eq_true] at hc
      simp only [searchFind, hc, if_neg Bool.false_ne_true] at h ⊢
      obtain ⟨h1, h2⟩ := ih h
      refine ⟨?_, h2⟩
      simp [List.takeWhile, hc, h1]

/-- Membership in a `mapSet` result: an old entry or the new pair. -/
theorem mem_mapSet (m : List DepEntry) (k : String) (v : Option String) (e : DepEntry)
    (h : e ∈ mapSet m k v) : e ∈ m ∨ e = (k, v) := by
  unfold mapSet at h
  by_cases hk : hasKey m k
  · rw [if_pos hk] at h
    obtain ⟨e2, he2, hfe⟩ := List.mem_map.mp h
    by_cases hek : e2.1 = k
    · rw [if_pos hek] at hfe
      exact Or.inr hfe.symm
    · rw [if_neg hek] at hfe
      exact Or.inl (hfe ▸ he2)
  · rw [if_neg hk] at h
    rcases List.mem_append.mp h with h1 | h1
    · exact Or.inl h1
    · exact Or.inr (List.mem_singleton.mp h1)

/-- Every entry of a `scan` result has a module name matching the
inclusion pattern: the adapter discards the others before returning. -/
theorem scan_pattern (cfg : Config) (p : String) (e : DepEntry) (h : e ∈ scan cfg p) :
    cfg.pattern e.1 = true := by
  suffices hgen : ∀ (l : List DepEntry) (acc : List DepEntry),
      (∀ e2 ∈ acc, cfg.pattern e2.1 = true) →
      ∀ e2 ∈ l.foldl
        (fun result dep => if cfg.pattern dep.1 then mapSet result dep.1 dep.2 else result) acc,
      cfg.pattern e2.1 = true by
    exact hgen (cfg.oracle p) [] (by intro e2 he2; cases he2) e h
  intro l
  induction l with
  | nil => intro acc hacc e2 he2; exact hacc e2 he2
  | cons dep rest ih =>
    intro acc hacc e2 he2
    simp only [List.foldl_cons] at he2
    by_cases hp : cfg.pattern dep.1
    · rw [if_pos hp] at he2
      refine ih _ ?_ e2 he2
      intro e3 he3
      rcases mem_mapSet _ _ _ _ he3 with h1 | h1
      · exact hacc e3 h1
      · rw [h1]; exact hp
    · rw [if_neg hp] at he2
      exact ih _ hacc e2 he2

/-- A copy action produced by `resolveEntry` carries the module name of
the entry being processed. -/
theorem resolveEntry_copy_name (cfg : Config) (name : String) (fp : Option String)
    (pop : String) (c : CopyAction) (h : resolveEntry cfg name fp = some (pop, some c)) :
    c.1 = name := by
  unfold resolveEntry at h
  by_cases ht : truthy fp
  · rw [if_pos ht] at h
    cases h
  · rw [if_neg ht] at h
    cases hd : findDir cfg name with
    | none => rw [hd] at h; cases h
    | some d =>
      rw [hd] at h
      cases h
      rfl

/-! ## Claims -/

/-- Claim C1, counterexample: in `cfgRe`, module `vtkD` is processed —
hence removed from the worklist (`queue.delete`, line 91) — at the
second step, yet after the third step (which scans `vtkC`, whose
dependencies again contain `vtkD`) the worklist contains `vtkD` again:
rediscovering a removed name as a child dependency does re-add it,
because `queue.has` (line 123) only sees names currently in the queue. -/
theorem readd_after_removal_counterexample :
    runFuel cfgRe 3 (initState cfgRe) =
        .outOfFuel ⟨[("vtkD", some "pd")], [], ["vtkA", "vtkD", "vtkC"], ["E", "pa", "pd", "pc"]⟩
      ∧ "vtkD" ∈ ["vtkA", "vtkD", "vtkC"]
      ∧ hasKey [(("vtkD" : String), some "pd")] "vtkD" = true := by
  refine ⟨by decide, by decide, by decide⟩

/-- Claim C1 (corrected): the dedup check of the child-enqueue loop
consults only the current worklist: after enqueueing, a name is a key
exactly when it already was one or occurs among the scanned children —
independently of which names were removed earlier.  A removed name that
is rediscovered is therefore re-added whenever it is not currently
present. -/
theorem dedup_consults_only_current_queue (q cs : List DepEntry) (k : String) :
    hasKey (enqueueChildren q cs) k = (hasKey q k || cs.any (fun c => c.1 = k)) :=
  hasKey_enqueueChildren q cs k

/-- Claim C2, counterexample: in `cfgRe`, modules `vtkA` and `vtkC`
both depend on `vtkD`, and the finished run invokes the oracle five
times (`scans`), scanning `vtkD`'s file `"pd"` twice — although the
closure has only three unique filtered module names, so the claim
predicts `3 + 1 = 4` invocations. -/
theorem oracle_invoked_twice_counterexample :
    runFuel cfgRe 5 (initState cfgRe) =
        .finished ⟨[], [], ["vtkA", "vtkD", "vtkC", "vtkD"], ["E", "pa", "pd", "pc", "pd"]⟩
      ∧ List.count "pd" ["E", "pa", "pd", "pc", "pd"] = 2
      ∧ List.length ["E", "pa", "pd", "pc", "pd"] = 5 := by
  refine ⟨by decide, by decide, by decide⟩

/-- Claim C3, counterexample: in `cfgMid`, module `vtkB` is not in the
worklist when the pass starts (`initState` holds only `vtkA`), it is
inserted mid-pass while scanning `vtkA`'s file, and it is processed
before the queue empties — that is, within the same pass: the live JS
`Map` iterator visits entries inserted during iteration, so there is no
stable per-pass snapshot and no subsequent pass. -/
theorem midpass_insertion_counterexample :
    hasKey (initState cfgMid).queue "vtkB" = false
      ∧ runFuel cfgMid 3 (initState cfgMid) =
          .finished ⟨[], [], ["vtkA", "vtkB"], ["E", "pa", "pb"]⟩
      ∧ "vtkB" ∈ ["vtkA", "vtkB"] := by
  refine ⟨by decide, by decide, by decide⟩

/-- Claim C5 (confirmed): when the head worklist entry has a falsy
resolved path and no search directory contains its module name, the run
halts at once with an error naming that module (line 113): the returned
state is exactly the state at the throw — no copy was performed for the
module, the remaining entries are still in the (never again processed)
worklist, and the copies performed earlier remain recorded. -/
theorem unresolved_dependency_halts (cfg : Config) (n : Nat) (name : String)
    (fp : Option String) (rest : List DepEntry) (cps : List CopyAction)
    (prc scs : List String) (hfp : truthy fp = false) (hmiss : findDir cfg name = none) :
    runFuel cfg (n + 1) ⟨(name, fp) :: rest, cps, prc, scs⟩ =
      .failed name ⟨(name, fp) :: rest, cps, prc, scs⟩ := by
  rw [runFuel_cons_eq]
  have hr : resolveEntry cfg name fp = none := by
    unfold resolveEntry
    rw [if_neg (by rw [hfp]; exact Bool.false_ne_true), hmiss]
  rw [hr]

/-- Claim C5, witness: in `cfgMiss`, after `vtkW` has been copied, the
entry `vtkX` (no resolved path, no match in the search directory)
aborts the run with `vtkX`'s name; `vtkZ` is never processed and the
copy of `vtkW` remains. -/
theorem unresolved_dependency_halts_witness :
    runFuel cfgMiss 3
        ⟨[("vtkX", none), ("vtkZ", some "pz")], [("vtkW", "S/vtkW", "T/vtkW")],
         ["vtkW"], ["E", "T/vtkW"]⟩ =
      .failed "vtkX"
        ⟨[("vtkX", none), ("vtkZ", some "pz")], [("vtkW", "S/vtkW", "T/vtkW")],
         ["vtkW"], ["E", "T/vtkW"]⟩ :=
  unresolved_dependency_halts cfgMiss 2 "vtkX" none [("vtkZ", some "pz")]
    [("vtkW", "S/vtkW", "T/vtkW")] ["vtkW"] ["E", "T/vtkW"] (by decide) (by decide)

/-- Claim C9 (confirmed): processing a worklist entry whose reported
path is truthy performs no copy: the `copies` component is passed on
unchanged (only the queue, processed names and scans advance), so the
target directory is not written to by already-resolved modules. -/
theorem resolved_path_no_copy (cfg : Config) (n : Nat) (name p : String)
    (rest : List DepEntry) (cps : List CopyAction) (prc scs : List String)
    (hp : p.isEmpty = false) :
    runFuel cfg (n + 1) ⟨(name, some p) :: rest, cps, prc, scs⟩ =
      runFuel cfg n ⟨enqueueChildren rest (scan cfg p), cps, prc ++ [name], scs ++ [p]⟩ := by
  rw [runFuel_cons_eq]
  have hr : resolveEntry cfg name (some p) = some (p, none) := by
    unfold resolveEntry
    rw [if_pos (by simp [truthy, hp])]
    rfl
  rw [hr]

/-- Claim C9, witness: the first step of `cfgMid` processes the
resolved entry `vtkA` without adding any copy action. -/
theorem resolved_path_no_copy_witness :
    runFuel cfgMid 3 ⟨[("vtkA", some "pa")], [], [], ["E"]⟩ =
      runFuel cfgMid 2 ⟨enqueueChildren [] (scan cfgMid "pa"), [], ["vtkA"], ["E", "pa"]⟩ :=
  resolved_path_no_copy cfgMid 2 "vtkA" "pa" [] [] [] ["E"] (by decide)

/-- Claim C10 (confirmed): if the seed scan of the root executable
returns the empty mapping, the loop body never runs: the run finishes
with no copies, no processed entries, and exactly the one seed oracle
invocation recorded — only the elapsed-time line remains to print. -/
theorem empty_seed_finishes (cfg : Config) (fuel : Nat) (h : scan cfg cfg.exePath = []) :
    runFuel cfg fuel (initState cfg) = .finished ⟨[], [], [], [cfg.exePath]⟩ := by
  have h0 : initState cfg = ⟨[], [], [], [cfg.exePath]⟩ := by
    unfold initState
    rw [h]
  rw [h0, runFuel_queue_nil]

/-- Claim C10, witness: in `cfgEmpty` the root's only reported
dependency fails the inclusion pattern, the seed mapping is empty, and
the run finishes immediately having invoked the oracle once. -/
theorem empty_seed_finishes_witness :
    runFuel cfgEmpty 7 (initState cfgEmpty) = .finished ⟨[], [], [], ["E"]⟩ :=
  empty_seed_finishes cfgEmpty 7 (by decide)

/-- Each processing step appends exactly one oracle invocation and one
processed name, so their difference is invariant along the run. -/
theorem scans_processed_relation (cfg : Config) (fuel : Nat) (s : EngineState) :
    (resultState (runFuel cfg fuel s)).scans.length + s.processed.length =
      (resultState (runFuel cfg fuel s)).processed.length + s.scans.length := by
  induction fuel generalizing s with
  | zero =>
    obtain ⟨q, cps, prc, scs⟩ := s
    cases q with
    | nil => rw [runFuel_queue_nil]; exact Nat.add_comm _ _
    | cons e rest => rw [runFuel_zero_cons]; exact Nat.add_comm _ _
  | succ n ih =>
    obtain ⟨q, cps, prc, scs⟩ := s
    cases q with
    | nil => rw [runFuel_queue_nil]; exact Nat.add_comm _ _
    | cons e rest =>
      obtain ⟨name, fp⟩ := e
      rw [runFuel_cons_eq]
      cases hr : resolveEntry cfg name fp with
      | none => exact Nat.add_comm _ _
      | some r =>
        obtain ⟨pop, copyOpt⟩ := r
        cases copyOpt with
        | none =>
          have h2 := ih ⟨enqueueChildren rest (scan cfg pop), cps, prc ++ [name], scs ++ [pop]⟩
          simp only [List.length_append, List.length_cons, List.length_nil] at h2 ⊢
          omega
        | some c =>
          have h2 := ih ⟨enqueueChildren rest (scan cfg pop), cps ++ [c],
                         prc ++ [name], scs ++ [pop]⟩
          simp only [List.length_append, List.length_cons, List.length_nil] at h2 ⊢
          omega

/-- Claim C2 (corrected): the oracle is invoked once per *processed
worklist entry* plus the seed scan — `scans` always numbers one more
than `processed`.  Since a module name can re-enter the worklist after
having been removed (see the counterexample), the same module can be
processed, and hence oracle-expanded, more than once: the invocation
count is not bounded by the number of unique filtered names. -/
theorem oracle_invocations_count (cfg : Config) (fuel : Nat) :
    (resultState (runFuel cfg fuel (initState cfg))).scans.length =
      (resultState (runFuel cfg fuel (initState cfg))).processed.length + 1 := by
  have h := scans_processed_relation cfg fuel (initState cfg)
  simp only [initState, List.length_nil, List.length_cons] at h ⊢
  omega

/-- Claim C3 (corrected): the engine iterates the *live* worklist, not
a per-pass snapshot: whenever the run reaches `finished`, every name
queued at any intermediate state — including entries inserted
mid-iteration — has been processed by the end of that same single
`for` pass, and the worklist is empty, so the `while` loop never starts
a second pass. -/
theorem live_iteration_processes_all (cfg : Config) (fuel : Nat) (s s2 : EngineState)
    (k : String) (hrun : runFuel cfg fuel s = .finished s2)
    (hk : hasKey s.queue k = true) :
    k ∈ s2.processed ∧ s2.queue = [] := by
  refine ⟨?_, finished_queue_eq_nil cfg fuel s s2 hrun⟩
  induction fuel generalizing s with
  | zero =>
    obtain ⟨q, cps, prc, scs⟩ := s
    cases q with
    | nil => simp [hasKey] at hk
    | cons e rest => rw [runFuel_zero_cons] at hrun; cases hrun
  | succ n ih =>
    obtain ⟨q, cps, prc, scs⟩ := s
    cases q with
    | nil => simp [hasKey] at hk
    | cons e rest =>
      obtain ⟨name, fp⟩ := e
      rw [runFuel_cons_eq] at hrun
      cases hr : resolveEntry cfg name fp with
      | none => rw [hr] at hrun; cases hrun
      | some r =>
        obtain ⟨pop, copyOpt⟩ := r
        rw [hr] at hrun
        cases copyOpt with
        | none =>
          have hstep : runFuel cfg n
              ⟨enqueueChildren rest (scan cfg pop), cps, prc ++ [name], scs ++ [pop]⟩ =
                .finished s2 := hrun
          by_cases hnk : name = k
          · have hmem : k ∈ prc ++ [name] :=
              List.mem_append_right _ (List.mem_singleton.mpr hnk.symm)
            have hmono := processed_mono cfg n
              ⟨enqueueChildren rest (scan cfg pop), cps, prc ++ [name], scs ++ [pop]⟩ k hmem
            rw [hstep] at hmono
            exact hmono
          · have hrest : hasKey rest k = true := by
              simp only [hasKey, List.any_cons] at hk
              rcases Bool.or_eq_true_iff.mp hk with h1 | h1
              · exact absurd (of_decide_eq_true h1) hnk
              · exact h1
            have hnew : hasKey (enqueueChildren rest (scan cfg pop)) k = true := by
              rw [hasKey_enqueueChildren, hrest, Bool.true_or]
            exact ih _ hstep hnew
        | some c =>
          have hstep : runFuel cfg n
              ⟨enqueueChildren rest (scan cfg pop), cps ++ [c],
               prc ++ [name], scs ++ [pop]⟩ = .finished s2 := hrun
          by_cases hnk : name = k
          · have hmem : k ∈ prc ++ [name] :=
              List.mem_append_right _ (List.mem_singleton.mpr hnk.symm)
            have hmono := processed_mono cfg n
              ⟨enqueueChildren rest (scan cfg pop), cps ++ [c],
               prc ++ [name], scs ++ [pop]⟩ k hmem
            rw [hstep] at hmono
            exact hmono
          · have hrest : hasKey rest k = true := by
              simp only [hasKey, List.any_cons] at hk
              rcases Bool.or_eq_true_iff.mp hk with h1 | h1
              · exact absurd (of_decide_eq_true h1) hnk
              · exact h1
            have hnew : hasKey (enqueueChildren rest (scan cfg pop)) k = true := by
              rw [hasKey_enqueueChildren, hrest, Bool.true_or]
            exact ih _ hstep hnew

/-- Claim C3, witness: applying the drain theorem to `cfgMid`'s
finished run shows `vtkA` processed with the final worklist empty. -/
theorem live_iteration_processes_all_witness :
    "vtkA" ∈ (⟨[], [], ["vtkA", "vtkB"], ["E", "pa", "pb"]⟩ : EngineState).processed
      ∧ (⟨[], [], ["vtkA", "vtkB"], ["E", "pa", "pb"]⟩ : EngineState).queue = [] :=
  live_iteration_processes_all cfgMid 3 (initState cfgMid)
    ⟨[], [], ["vtkA", "vtkB"], ["E", "pa", "pb"]⟩ "vtkA" (by decide) (by decide)

/-- Claim C6 (confirmed): a worklist entry with a falsy path whose
search succeeds is copied from the first search directory, in
configured order, containing a file named exactly like the module: the
found directory contains the module; the directories consulted are the
non-matching prefix followed by the match (no later directory is read);
the found directory is `List.find?` of the matcher over `SEARCH_DIRS`;
and the step records exactly one copy from `d/name` to `exeDir/name`. -/
theorem missing_copied_from_first_dir (cfg : Config) (n : Nat) (name : String)
    (fp : Option String) (rest : List DepEntry) (cps : List CopyAction)
    (prc scs : List String) (d : String)
    (hfp : truthy fp = false) (hfind : findDir cfg name = some d) :
    (cfg.dirContents d).any (fun f => f = name) = true
      ∧ consulted cfg name =
          cfg.searchDirs.takeWhile
            (fun d2 => !((cfg.dirContents d2).any (fun f => f = name))) ++ [d]
      ∧ findDir cfg name =
          cfg.searchDirs.find? (fun d2 => (cfg.dirContents d2).any (fun f => f = name))
      ∧ runFuel cfg (n + 1) ⟨(name, fp) :: rest, cps, prc, scs⟩ =
          runFuel cfg n
            ⟨enqueueChildren rest (scan cfg (pathJoin cfg.exeDir name)),
             cps ++ [(name, pathJoin d name, pathJoin cfg.exeDir name)],
             prc ++ [name], scs ++ [pathJoin cfg.exeDir name]⟩ := by
  obtain ⟨hcons, hany⟩ := searchFind_consulted cfg name cfg.searchDirs d hfind
  refine ⟨hany, hcons, searchFind_fst_eq cfg name cfg.searchDirs, ?_⟩
  rw [runFuel_cons_eq]
  have hr : resolveEntry cfg name fp =
      some (pathJoin cfg.exeDir name,
            some (name, pathJoin d name, pathJoin cfg.exeDir name)) := by
    unfold resolveEntry
    rw [if_neg (by rw [hfp]; exact Bool.false_ne_true), hfind]
  rw [hr]

/-- Claim C6, witness: in `cfgCopy` the module `vtkY` is found in the
second of three directories; only the first two are consulted, and the
copy is recorded from `S2/vtkY`. -/
theorem missing_copied_from_first_dir_witness :
    (cfgCopy.dirContents "S2").any (fun f => f = "vtkY") = true
      ∧ consulted cfgCopy "vtkY" =
          cfgCopy.searchDirs.takeWhile
            (fun d2 => !((cfgCopy.dirContents d2).any (fun f => f = "vtkY"))) ++ ["S2"]
      ∧ findDir cfgCopy "vtkY" =
          cfgCopy.searchDirs.find? (fun d2 => (cfgCopy.dirContents d2).any (fun f => f = "vtkY"))
      ∧ runFuel cfgCopy 2 ⟨[("vtkY", none)], [], [], ["E"]⟩ =
          runFuel cfgCopy 1
            ⟨enqueueChildren [] (scan cfgCopy (pathJoin cfgCopy.exeDir "vtkY")),
             [] ++ [("vtkY", pathJoin "S2" "vtkY", pathJoin cfgCopy.exeDir "vtkY")],
             [] ++ ["vtkY"], ["E"] ++ [pathJoin cfgCopy.exeDir "vtkY"]⟩ :=
  missing_copied_from_first_dir cfgCopy 1 "vtkY" none [] [] [] ["E"] "S2"
    (by decide) (by decide)

/-- Claim C7 (confirmed): starting from the seeded state, every state
the run can reach — whatever the fuel, and whether it finished, failed
or is still going — contains only pattern-matching module names: in the
worklist, among the processed names, and among the copied files.  A
dependency entry failing the inclusion pattern is discarded by `scan`
before returning and never enters the worklist, is never copied, and is
never reported. -/
theorem filtered_names_only (cfg : Config) (fuel : Nat) :
    statePatterns cfg (resultState (runFuel cfg fuel (initState cfg))) = true := by
  have hstep : ∀ (f : Nat) (s : EngineState), statePatterns cfg s = true →
      statePatterns cfg (resultState (runFuel cfg f s)) = true := by
    intro f
    induction f with
    | zero =>
      intro s hs
      obtain ⟨q, cps, prc, scs⟩ := s
      cases q with
      | nil => rw [runFuel_queue_nil]; exact hs
      | cons e rest => rw [runFuel_zero_cons]; exact hs
    | succ n ih =>
      intro s hs
      obtain ⟨q, cps, prc, scs⟩ := s
      cases q with
      | nil => rw [runFuel_queue_nil]; exact hs
      | cons e rest =>
        obtain ⟨name, fp⟩ := e
        rw [runFuel_cons_eq]
        simp only [statePatterns, Bool.and_eq_true, List.all_eq_true] at hs
        obtain ⟨⟨hq, hp⟩, hc⟩ := hs
        have hname : cfg.pattern name = true := hq (name, fp) (List.mem_cons_self _ _)
        have hqrest : ∀ e2 ∈ rest, cfg.pattern e2.1 = true :=
          fun e2 he2 => hq e2 (List.mem_cons_of_mem _ he2)
        cases hr : resolveEntry cfg name fp with
        | none =>
          simp only [statePatterns, Bool.and_eq_true, List.all_eq_true]
          exact ⟨⟨hq, hp⟩, hc⟩
        | some r =>
          obtain ⟨pop, copyOpt⟩ := r
          have hqnew : ∀ e2 ∈ enqueueChildren rest (scan cfg pop), cfg.pattern e2.1 = true := by
            intro e2 he2
            rcases mem_enqueueChildren _ _ _ he2 with h1 | h1
            · exact hqrest e2 h1
            · exact scan_pattern cfg pop e2 h1
          have hpnew : ∀ x ∈ prc ++ [name], cfg.pattern x = true := by
            intro x hx
            rcases List.mem_append.mp hx with h1 | h1
            · exact hp x h1
            · rw [List.mem_singleton.mp h1]
              exact hname
          cases copyOpt with
          | none =>
            apply ih ⟨enqueueChildren rest (scan cfg pop), cps, prc ++ [name], scs ++ [pop]⟩
            simp only [statePatterns, Bool.and_eq_true, List.all_eq_true]
            exact ⟨⟨hqnew, hpnew⟩, hc⟩
          | some c =>
            apply ih ⟨enqueueChildren rest (scan cfg pop), cps ++ [c],
                      prc ++ [name], scs ++ [pop]⟩
            simp only [statePatterns, Bool.and_eq_true, List.all_eq_true]
            refine ⟨⟨hqnew, hpnew⟩, ?_⟩
            intro c2 hc2
            rcases List.mem_append.mp hc2 with h1 | h1
            · exact hc c2 h1
            · rw [List.mem_singleton.mp h1,
                  resolveEntry_copy_name cfg name fp pop c hr]
              exact hname
  apply hstep
  simp only [statePatterns, Bool.and_eq_true, List.all_eq_true, initState]
  refine ⟨⟨fun e he => scan_pattern cfg cfg.exePath e he, fun x hx => absurd hx ?_⟩,
          fun c2 hc2 => absurd hc2 ?_⟩ <;> simp

theorem hasKey_iff_mem_keys (m : List DepEntry) (k : String) :
    hasKey m k = true ↔ k ∈ m.map (fun e => e.1) := by
  simp only [hasKey, List.any_eq_true, decide_eq_true_eq, List.mem_map]

theorem keys_mapSet_nodup (m : List DepEntry) (k : String) (v : Option String)
    (h : (m.map (fun e => e.1)).Nodup) :
    ((mapSet m k v).map (fun e => e.1)).Nodup := by
  unfold mapSet
  by_cases hk : hasKey m k
  · rw [if_pos hk, List.map_map]
    have hcomp : ((fun e : DepEntry => e.1) ∘ (fun e => if e.1 = k then (k, v) else e)) =
        (fun e : DepEntry => e.1) := by
      funext e
      by_cases he : e.1 = k
      · simp [he]
      · simp [he]
    rw [hcomp]
    exact h
  · rw [if_neg hk, List.map_append]
    rw [List.nodup_append]
    refine ⟨h, List.nodup_singleton _, ?_⟩
    intro a ha hak
    simp only [List.map_cons, List.map_nil, List.mem_singleton] at hak
    rw [hak] at ha
    exact hk ((hasKey_iff_mem_keys m k).mpr ha)

theorem find?_map_update_self (m : List DepEntry) (k : String) (v : Option String)
    (hk : hasKey m k = true) :
    (m.map (fun e => if e.1 = k then (k, v) else e)).find? (fun e => e.1 = k) = some (k, v) := by
  induction m with
  | nil => simp [hasKey] at hk
  | cons e m ih =>
    by_cases he : e.1 = k
    · rw [List.map_cons, if_pos he]
      exact List.find?_cons_of_pos _ (by simp)
    · have hk2 : hasKey m k = true := by
        simp only [hasKey, List.any_cons] at hk
        rcases Bool.or_eq_true_iff.mp hk with h1 | h1
        · exact absurd (of_decide_eq_true h1) he
        · exact h1
      rw [List.map_cons, if_neg he]
      rw [List.find?_cons_of_neg _ (by simp [he]), ih hk2]

theorem find?_map_update_ne (m : List DepEntry) (k : String) (v : Option String)
    (k2 : String) (hne : k2 ≠ k) :
    (m.map (fun e => if e.1 = k then (k, v) else e)).find? (fun e => e.1 = k2) =
      m.find? (fun e => e.1 = k2) := by
  induction m with
  | nil => rfl
  | cons e m ih =>
    rw [List.map_cons]
    by_cases he : e.1 = k
    · have hke : ¬ k = k2 := fun h => hne h.symm
      have hek2 : ¬ e.1 = k2 := fun h => hne (he ▸ h : k = k2).symm
      rw [if_pos he]
      rw [List.find?_cons_of_neg _ (by simp [hke]), ih]
      rw [List.find?_cons_of_neg _ (by simp [hek2])]
    · rw [if_neg he]
      by_cases he2 : e.1 = k2
      · rw [List.find?_cons_of_pos _ (by simp [he2]),
            List.find?_cons_of_pos _ (by simp [he2])]
      · rw [List.find?_cons_of_neg _ (by simp [he2]), ih,
            List.find?_cons_of_neg _ (by simp [he2])]

theorem find?_none_of_hasKey_false (m : List DepEntry) (k : String)
    (h : hasKey m k = false) : m.find? (fun e => e.1 = k) = none := by
  rw [List.find?_eq_none]
  intro e he hp
  have h2 : hasKey m k = true := by
    simp only [hasKey, List.any_eq_true]
    exact ⟨e, he, hp⟩
  rw [h] at h2
  cases h2

/-- `Map.prototype.set` and lookup: the new value is found under the
written key, other keys are untouched. -/
theorem lookupKey_mapSet (m : List DepEntry) (k : String) (v : Option String) (k2 : String) :
    lookupKey (mapSet m k v) k2 = if k2 = k then some v else lookupKey m k2 := by
  unfold mapSet lookupKey
  by_cases hk : hasKey m k
  · rw [if_pos hk]
    by_cases hek : k2 = k
    · rw [if_pos hek, hek, find?_map_update_self m k v hk]
      rfl
    · rw [if_neg hek, find?_map_update_ne m k v k2 hek]
  · rw [if_neg hk]
    have hkf : hasKey m k = false := Bool.not_eq_true _ ▸ hk
    by_cases hek : k2 = k
    · rw [if_pos hek, hek, List.find?_append, find?_none_of_hasKey_false m k hkf]
      rw [List.find?_cons_of_pos _ (by simp)]
      rfl
    · have hke : ¬ (k = k2) := fun h => hek h.symm
      rw [if_neg hek, List.find?_append]
      rw [show ([(k, v)].find? (fun e => e.1 = k2)) = none from
            by rw [List.find?_cons_of_neg _ (by simp [hke])]; rfl]
      rw [Option.or_none]

/-- The scan fold builds a map with distinct keys whose value under any
key is the `Filepath` of the last pattern-matching occurrence of that
key in the tool's output. -/
theorem scanFold_spec (cfg : Config) (l : List DepEntry) (k : String) :
    ((l.foldl
        (fun result dep => if cfg.pattern dep.1 then mapSet result dep.1 dep.2 else result)
        []).map (fun e => e.1)).Nodup
      ∧ lookupKey
          (l.foldl
            (fun result dep => if cfg.pattern dep.1 then mapSet result dep.1 dep.2 else result)
            []) k =
          (if cfg.pattern k = true then
            ((l.filter (fun e => e.1 = k)).getLast?).map (fun e => e.2)
          else none) := by
  induction l using List.reverseRecOn with
  | nil =>
    refine ⟨List.nodup_nil, ?_⟩
    simp [lookupKey]
  | append_singleton l e ih =>
    obtain ⟨ihn, ihl⟩ := ih
    rw [List.foldl_append, List.foldl_cons, List.foldl_nil]
    by_cases hp : cfg.pattern e.1
    · rw [if_pos hp]
      refine ⟨keys_mapSet_nodup _ _ _ ihn, ?_⟩
      rw [lookupKey_mapSet]
      by_cases hek : k = e.1
      · subst hek
        rw [if_pos rfl, if_pos hp, List.filter_append]
        rw [show [e].filter (fun e2 => e2.1 = e.1) = [e] from by simp [List.filter_cons]]
        rw [List.getLast?_concat]
        rfl
      · have hek2 : ¬ e.1 = k := fun h => hek h.symm
        rw [if_neg hek, ihl, List.filter_append]
        rw [show [e].filter (fun e2 => e2.1 = k) = [] from by simp [List.filter_cons, hek2]]
        rw [List.append_nil]
    · rw [if_neg hp]
      refine ⟨ihn, ?_⟩
      rw [ihl]
      by_cases hek : e.1 = k
      · have hpk : ¬ cfg.pattern k = true := by
          rw [← hek]
          exact hp
        rw [if_neg hpk, if_neg hpk]
      · rw [List.filter_append]
        rw [show [e].filter (fun e2 => e2.1 = k) = [] from by simp [List.filter_cons, hek]]
        rw [List.append_nil]

/-- Claim C8 (confirmed): for every input file, the adapter's result is
keyed by module name with no duplicate keys, and the value found under
a name is the `Filepath` of the *last* occurrence of that name among
the tool's reported dependencies (none when the name fails the
pattern): if the tool reports a name twice, the single surviving entry
carries the last occurrence's path. -/
theorem scan_mapping_last_wins (cfg : Config) (p k : String) :
    ((scan cfg p).map (fun e => e.1)).Nodup
      ∧ lookupKey (scan cfg p) k =
          (if cfg.pattern k = true then
            (((cfg.oracle p).filter (fun e => e.1 = k)).getLast?).map (fun e => e.2)
          else none) :=
  scanFold_spec cfg (cfg.oracle p) k

/-- One loop step of the cyclic configuration, from `vtkA`'s entry. -/
theorem cyc_step_A (n : Nat) (cps : List CopyAction) (prc scs : List String) :
    runFuel cfgCyc (n + 1) ⟨[("vtkA", some "pa")], cps, prc, scs⟩ =
      runFuel cfgCyc n ⟨[("vtkB", some "pb")], cps, prc ++ ["vtkA"], scs ++ ["pa"]⟩ := rfl

/-- One loop step of the cyclic configuration, from `vtkB`'s entry. -/
theorem cyc_step_B (n : Nat) (cps : List CopyAction) (prc scs : List String) :
    runFuel cfgCyc (n + 1) ⟨[("vtkB", some "pb")], cps, prc, scs⟩ =
      runFuel cfgCyc n ⟨[("vtkA", some "pa")], cps, prc ++ ["vtkB"], scs ++ ["pb"]⟩ := rfl

/-- In the cyclic configuration, no amount of fuel finishes (or fails)
the loop from either of the two alternating singleton worklists. -/
theorem cyc_no_fuel_done (n : Nat) :
    ∀ (cps : List CopyAction) (prc scs : List String),
      isDone (runFuel cfgCyc n ⟨[("vtkA", some "pa")], cps, prc, scs⟩) = false
        ∧ isDone (runFuel cfgCyc n ⟨[("vtkB", some "pb")], cps, prc, scs⟩) = false := by
  induction n with
  | zero => intro cps prc scs; exact ⟨rfl, rfl⟩
  | succ n ih =>
    intro cps prc scs
    constructor
    · rw [cyc_step_A]
      exact (ih cps (prc ++ ["vtkA"]) (scs ++ ["pa"])).2
    · rw [cyc_step_B]
      exact (ih cps (prc ++ ["vtkB"]) (scs ++ ["pb"])).1

/-- Claim C4, counterexample: `cfgCyc`'s filtered transitive dependency
set is the finite set of the two modules `vtkA` and `vtkB` (which
depend on each other), yet resolution never terminates: no fuel makes
the run finish or fail, because each of the two names keeps being
re-added right after the other is processed. -/
theorem cycle_never_halts_counterexample : halts cfgCyc = False := by
  apply eq_false
  rintro ⟨n, hn⟩
  have hinit : initState cfgCyc = ⟨[("vtkA", some "pa")], [], [], ["E"]⟩ := by decide
  rw [hinit] at hn
  rw [(cyc_no_fuel_done n [] [] ["E"]).1] at hn
  cases hn

theorem measureQ_cons (ht : String → Nat) (B : Nat) (e : DepEntry) (q : List DepEntry) :
    measureQ ht B (e :: q) = (B + 1) ^ ht e.1 + measureQ ht B q := by
  simp [measureQ]

theorem measureQ_append (ht : String → Nat) (B : Nat) (q r : List DepEntry) :
    measureQ ht B (q ++ r) = measureQ ht B q + measureQ ht B r := by
  simp [measureQ]

theorem measureQ_enqueue (ht : String → Nat) (B : Nat) (q cs : List DepEntry) :
    measureQ ht B (enqueueChildren q cs) ≤ measureQ ht B q + measureQ ht B cs := by
  induction cs generalizing q with
  | nil => simp [enqueueChildren, measureQ]
  | cons c cs ih =>
    simp only [enqueueChildren, List.foldl_cons] at *
    rw [measureQ_cons]
    by_cases hc : hasKey q c.1
    · rw [if_pos hc]
      have h1 := ih q
      have h2 : (0 : Nat) ≤ (B + 1) ^ ht c.1 := Nat.zero_le _
      omega
    · rw [if_neg hc]
      have h1 := ih (q ++ [c])
      have h2 : measureQ ht B (q ++ [c]) = measureQ ht B q + (B + 1) ^ ht c.1 := by
        rw [measureQ_append, measureQ_cons]
        simp [measureQ]
      omega

theorem measureQ_lt_pow (ht : String → Nat) (B : Nat) (cs : List DepEntry) (H : Nat)
    (hlen : cs.length ≤ B) (hh : ∀ c ∈ cs, ht c.1 < H) :
    measureQ ht B cs < (B + 1) ^ H := by
  cases H with
  | zero =>
    cases cs with
    | nil => simp [measureQ]
    | cons c cs => exact absurd (hh c (List.mem_cons_self _ _)) (Nat.not_lt_zero _)
  | succ H2 =>
    have hsum : measureQ ht B cs ≤ cs.length * (B + 1) ^ H2 := by
      have hb : ∀ x ∈ cs.map (fun e => (B + 1) ^ ht e.1), x ≤ (B + 1) ^ H2 := by
        intro x hx
        obtain ⟨c, hc, hcx⟩ := List.mem_map.mp hx
        rw [← hcx]
        exact Nat.pow_le_pow_right (Nat.succ_le_succ (Nat.zero_le B))
          (Nat.lt_succ_iff.mp (hh c hc))
      have := List.sum_le_card_nsmul (cs.map (fun e => (B + 1) ^ ht e.1)) ((B + 1) ^ H2) hb
      simpa [measureQ, smul_eq_mul] using this
    have hpos : 0 < (B + 1) ^ H2 := Nat.pos_pow_of_pos H2 (Nat.succ_pos B)
    have hBle : cs.length * (B + 1) ^ H2 ≤ B * (B + 1) ^ H2 :=
      Nat.mul_le_mul_right _ hlen
    have hlt : B * (B + 1) ^ H2 < (B + 1) * (B + 1) ^ H2 :=
      Nat.mul_lt_mul_of_lt_of_le (Nat.lt_succ_self B) (Nat.le_refl _) hpos
    calc measureQ ht B cs ≤ cs.length * (B + 1) ^ H2 := hsum
      _ ≤ B * (B + 1) ^ H2 := hBle
      _ < (B + 1) * (B + 1) ^ H2 := hlt
      _ = (B + 1) ^ (H2 + 1) := by rw [pow_succ, Nat.mul_comm]

/-- Claim C4 (corrected): resolution does terminate — with fuel at
least the worklist's measure — whenever the reachable entries `G` admit
a height function that strictly decreases from each module to its
scanned children and a bound `B` on the number of filtered direct
dependencies; this holds exactly when the filtered dependency relation
is acyclic (a cycle admits no such height, and by the counterexample
the run then need not terminate even though the filtered name set is
finite).  The live iteration performs the whole resolution within a
single pass of the `while` loop, so there is no pass-per-depth-level
structure to bound. -/
theorem acyclic_termination (cfg : Config) (G : List DepEntry) (ht : String → Nat)
    (B : Nat) (fuel : Nat) (s : EngineState)
    (hG : goodStepB cfg G ht B = true)
    (hq : ∀ e ∈ s.queue, e ∈ G)
    (hf : measureQ ht B s.queue ≤ fuel) :
    isDone (runFuel cfg fuel s) = true := by
  induction fuel generalizing s with
  | zero =>
    obtain ⟨q, cps, prc, scs⟩ := s
    cases q with
    | nil => rw [runFuel_queue_nil]; rfl
    | cons e rest =>
      exfalso
      simp only [measureQ_cons] at hf
      have hpos : 0 < (B + 1) ^ ht e.1 := Nat.pos_pow_of_pos _ (Nat.succ_pos B)
      omega
  | succ n ih =>
    obtain ⟨q, cps, prc, scs⟩ := s
    cases q with
    | nil => rw [runFuel_queue_nil]; rfl
    | cons e rest =>
      obtain ⟨name, fp⟩ := e
      rw [runFuel_cons_eq]
      cases hr : resolveEntry cfg name fp with
      | none => rfl
      | some r =>
        obtain ⟨pop, copyOpt⟩ := r
        have hmem : (name, fp) ∈ G := hq _ (List.mem_cons_self _ _)
        have hGe := List.all_eq_true.mp hG _ hmem
        simp only at hGe
        rw [hr] at hGe
        simp only [Bool.and_eq_true, decide_eq_true_eq, List.all_eq_true] at hGe
        obtain ⟨hlen, hch⟩ := hGe
        have hqnew : ∀ e2 ∈ enqueueChildren rest (scan cfg pop), e2 ∈ G := by
          intro e2 he2
          rcases mem_enqueueChildren _ _ _ he2 with h1 | h1
          · exact hq e2 (List.mem_cons_of_mem _ h1)
          · exact (hch e2 h1).1
        have hhch : ∀ c ∈ scan cfg pop, ht c.1 < ht name := fun c hc => (hch c hc).2
        have hm1 := measureQ_enqueue ht B rest (scan cfg pop)
        have hm2 := measureQ_lt_pow ht B (scan cfg pop) (ht name) hlen hhch
        rw [measureQ_cons] at hf
        have hf2 : (B + 1) ^ ht name + measureQ ht B rest ≤ n + 1 := hf
        have hfnew : measureQ ht B (enqueueChildren rest (scan cfg pop)) ≤ n := by omega
        cases copyOpt with
        | none =>
          exact ih ⟨enqueueChildren rest (scan cfg pop), cps, prc ++ [name], scs ++ [pop]⟩
            hqnew hfnew
        | some c =>
          exact ih ⟨enqueueChildren rest (scan cfg pop), cps ++ [c],
                    prc ++ [name], scs ++ [pop]⟩ hqnew hfnew

/-- Claim C4, witness: in the two-level acyclic configuration `cfgMid`
(`vtkA` depends only on `vtkB`, which has no filtered dependencies),
the height and bound data validate `goodStepB`, and fuel equal to the
seeded measure makes the run finish. -/
theorem acyclic_termination_witness :
    goodStepB cfgMid [("vtkA", some "pa"), ("vtkB", some "pb")]
        (fun s => if s = "vtkA" then 1 else 0) 1 = true
      ∧ isDone (runFuel cfgMid 2 (initState cfgMid)) = true :=
  ⟨by decide,
   acyclic_termination cfgMid [("vtkA", some "pa"), ("vtkB", some "pb")]
     (fun s => if s = "vtkA" then 1 else 0) 1 2 (initState cfgMid)
     (by decide) (by decide) (by decide)⟩
